import Mathlib

/-!
Shallow embedding of the indexing engine in `src/main.rs` of the
File-Management-System repository: the Entry model (`FileMetadata`), the
directory hash index (`HashTable` with FNV-1a key derivation), the AVL tree
per directory level (`AVLTreeNode` and its insert / balance / rotate /
search operations), and the recursive filesystem walks `build_hash_table`
and `build_avl_tree` over an abstract filesystem model.

Conventions of the embedding:
* Rust `u64` / `usize` values are `Nat` with explicit `% 2 ^ 64` where the
  source relies on wrapping arithmetic; `i32` heights are `Int` (tree
  heights never approach the `i32` range).
* Rust `String` and `PathBuf` are Lean `String`; `PathBuf` ordering is
  modelled by string ordering (the two agree on the single-component
  names used in every concrete instance below).
* `Option<Box<AVLTreeNode>>` is the inductive `AVLTree`, whose `nil`
  constructor is Rust's `None`; a `AVLTree.node` is `Some(Box(AVLTreeNode))`.
* `.unwrap()` on an `Option` that the surrounding code guarantees to be
  `Some` is modelled by a default branch that returns its input unchanged
  (such a branch corresponds to a Rust panic and is unreachable at every
  call site exercised by the theorems below).
-/

/-! ### Entry model (`FileType`, `FileMetadata` in src/main.rs) -/

inductive FileType : Type where
  | File : FileType
  | Directory : FileType
deriving DecidableEq, Repr

structure FileMetadata : Type where
  name : String
  path : String
  size : Nat
  file_type : FileType
deriving DecidableEq, Repr

/-! ### FNV-1a hashing and the hash table (`HashTable` in src/main.rs) -/

def FNV_PRIME : Nat := 1099511628211

def FNV_OFFSET_BASIS : Nat := 14695981039346656037

/-- UTF-8 encoding of one character, as the list of its byte values.
Models Rust's `str::bytes` iteration used by `HashTable::hash`. -/
def utf8Char (c : Char) : List Nat :=
  let n := c.toNat
  if n < 0x80 then [n]
  else if n < 0x800 then [0xC0 + n / 64, 0x80 + n % 64]
  else if n < 0x10000 then
    [0xE0 + n / 4096, 0x80 + (n / 64) % 64, 0x80 + n % 64]
  else
    [0xF0 + n / 262144, 0x80 + (n / 4096) % 64, 0x80 + (n / 64) % 64,
      0x80 + n % 64]

/-- The UTF-8 bytes of a string (Rust `key.bytes()`). -/
def strBytes (s : String) : List Nat :=
  s.data.flatMap utf8Char

/-- One step of FNV-1a: XOR the byte into the hash, then multiply by the
prime with wrapping 64-bit multiplication (`hash ^= byte;
hash = hash.wrapping_mul(FNV_PRIME)` in `HashTable::hash`). -/
def fnvStep (h b : Nat) : Nat :=
  ((h ^^^ b) * FNV_PRIME) % 2 ^ 64

/-- Models `HashTable::hash` from src/main.rs: FNV-1a over the UTF-8 bytes of the
key string.  The final `hash as usize` cast is the identity on the 64-bit
targets the program is written for. -/
def hashFn (key : String) : Nat :=
  (strBytes key).foldl fnvStep FNV_OFFSET_BASIS

/-- FNV-1a over a raw byte list: the function the spec describes, used to
compare the source's key derivation against the spec's wording. -/
def fnv1a (bytes : List Nat) : Nat :=
  bytes.foldl fnvStep FNV_OFFSET_BASIS

/-- Rust's `char::escape_debug` output for one character as used by the
`Debug` formatting of `String` and `PathBuf` inside a `format!("{:?}...")`:
quotes, backslashes and the common control characters get a backslash
escape, other control characters become `\u{...}`, everything else is kept
verbatim.  (Inside a double-quoted `Debug` string a single quote is not
escaped.) -/
def escapeDebugChar (c : Char) : String :=
  if c = '"' then "\\\""
  else if c = '\\' then "\\\\"
  else if c = '\n' then "\\n"
  else if c = '\t' then "\\t"
  else if c = '\r' then "\\r"
  else if c.toNat < 32 then
    "\\u\x7b" ++ String.mk (Nat.toDigits 16 c.toNat) ++ "\x7d"
  else String.singleton c

/-- Rust `Debug` formatting of a string (or of a `PathBuf`, which prints
its path the same way): the escaped characters surrounded by double
quotes. -/
def rustDebug (s : String) : String :=
  "\"" ++ String.join (s.data.map escapeDebugChar) ++ "\""

/-- The key string built by `HashTable::insert`:
`format!("{:?}{:?}{}", file.name, file.path, file.size)` — the
Debug-quoted name, the Debug-quoted path, then the size in decimal. -/
def keyString (file : FileMetadata) : String :=
  rustDebug file.name ++ rustDebug file.path ++ Nat.repr file.size

structure HashTable : Type where
  buckets : List (List FileMetadata)
deriving DecidableEq, Repr

/-- Models `HashTable::new` from src/main.rs: `size` empty buckets. -/
def HashTable.new (size : Nat) : HashTable :=
  ⟨List.replicate size []⟩

/-- The bucket index chosen by `HashTable::insert`: `hash % len`.
(When `buckets.len() == 0` the Rust code panics on the remainder; here
`n % 0 = n` and the out-of-range `List.set` below is the identity — that
branch is the unreachable-under-`size > 0` case of claim C10.) -/
def HashTable.slotOf (t : HashTable) (file : FileMetadata) : Nat :=
  hashFn (keyString file) % t.buckets.length

/-- Models `HashTable::insert` from src/main.rs: push the entry onto the bucket
selected by the FNV-1a hash of the formatted key, modulo the bucket
count. -/
def HashTable.insert (t : HashTable) (file : FileMetadata) : HashTable :=
  ⟨t.buckets.set (t.slotOf file)
    ((t.buckets.getD (t.slotOf file) []) ++ [file])⟩

def insertAll (t : HashTable) (files : List FileMetadata) : HashTable :=
  files.foldl HashTable.insert t

/-- Every entry stored in any bucket of the table is a directory entry. -/
def AllDirectories (t : HashTable) : Prop :=
  ∀ b ∈ t.buckets, ∀ e ∈ b, e.file_type = FileType.Directory

/-- The non-empty-bucket count computed by `print_hash_table`
(`bucket_count` in src/main.rs: buckets that are skipped as empty are not
counted). -/
def bucketCountNonEmpty (t : HashTable) : Nat :=
  (t.buckets.filter (fun b => !b.isEmpty)).length

/-- The load factor printed by `print_hash_table`:
`bucket_count as f32 / hash_table.buckets.len() as f32`, modelled with
exact rational arithmetic in place of `f32`. -/
def load_factor (t : HashTable) : ℚ :=
  (bucketCountNonEmpty t : ℚ) / (t.buckets.length : ℚ)

/-! ### The per-directory AVL tree (`AVLTreeNode` in src/main.rs)

`AVLTree.nil` is Rust's `None : Option<Box<AVLTreeNode>>`; `AVLTree.node f l r p
h` is `Some(Box(AVLTreeNode { file: f, left: l, right: r, parent: p,
height: h }))`.  The `parent` field is carried verbatim from the source
(where it is created as `None` and never assigned). -/

inductive AVLTree : Type where
  | nil : AVLTree
  | node (file : Option FileMetadata) (left : AVLTree) (right : AVLTree)
      (parent : AVLTree) (height : Int) : AVLTree
deriving DecidableEq, Repr

namespace AVLTree

def left : AVLTree → AVLTree
  | .nil => .nil
  | .node _ l _ _ _ => l

def right : AVLTree → AVLTree
  | .nil => .nil
  | .node _ _ r _ _ => r

end AVLTree

/-- Models `AVLTreeNode::new` from src/main.rs (wrapped in `Some(Box(..))` as
used at the only call site): fresh leaf with height 1 and no parent. -/
def AVLTreeNode.new (file : FileMetadata) : AVLTree :=
  .node (some file) .nil .nil .nil 1

/-- Models `get_height` from src/main.rs: stored height, `0` for `None`. -/
def get_height : AVLTree → Int
  | .nil => 0
  | .node _ _ _ _ h => h

/-- Models `update_height` from src/main.rs:
`node.height = 1 + max(get_height(left), get_height(right))`.  (In Rust it
takes `&mut Box<AVLTreeNode>`, so the `nil` case never occurs; it is
mapped to `nil`.) -/
def update_height : AVLTree → AVLTree
  | .nil => .nil
  | .node f l r p _ => .node f l r p (1 + max (get_height l) (get_height r))

/-- Models `rotate_left` from src/main.rs: promote the right child, reattach its
former left subtree as the demoted node's right child, recompute the
demoted node's height and then the promoted node's.  The fallthrough case
is Rust's `node.right.unwrap()` panic, unreachable at the call sites in
`balance_avl_tree`. -/
def rotate_left : AVLTree → AVLTree
  | .node f l (.node rf rl rr rp rh) p h =>
      update_height (.node rf (update_height (.node f l rl p h)) rr rp rh)
  | t => t

/-- Models `rotate_right` from src/main.rs, mirror image of `rotate_left`. -/
def rotate_right : AVLTree → AVLTree
  | .node f (.node lf ll lr lp lh) r p h =>
      update_height (.node lf ll (update_height (.node f lr r p h)) lp lh)
  | t => t

/-- Models `balance_avl_tree` from src/main.rs: recompute the height, then apply
the AVL rotation dictated by `get_height(left) - get_height(right)`.
(`update_height` is inlined into the rebuilt node's height field; the
`nil` case corresponds to the `&mut Box` receiver and never occurs.) -/
def balance_avl_tree : AVLTree → AVLTree
  | .nil => .nil
  | .node f l r p _ =>
      let h := 1 + max (get_height l) (get_height r)
      let bal := get_height l - get_height r
      if bal > 1 then
        if get_height l.left ≥ get_height l.right then
          rotate_right (.node f l r p h)
        else
          rotate_right (.node f (rotate_left l) r p h)
      else if bal < -1 then
        if get_height r.right ≥ get_height r.left then
          rotate_left (.node f l r p h)
        else
          rotate_left (.node f l (rotate_right r) p h)
      else .node f l r p h

/-- The name consulted by `insert_into_avl_tree`:
`node.file.as_ref().unwrap().name`.  The `none` case is the Rust panic,
unreachable because every constructed node carries `some` file. -/
def nameOf : Option FileMetadata → String
  | some m => m.name
  | none => ""

/-- Models `insert_into_avl_tree` from src/main.rs: standard AVL insert keyed by
`name`, descending left exactly when the new name is strictly smaller,
rebalancing on the way back up.  The Rust version clones the node and
overwrites one child; value semantics make that a record update. -/
def insert_into_avl_tree : AVLTree → FileMetadata → AVLTree
  | .nil, file => AVLTreeNode.new file
  | .node f l r p h, file =>
      if file.name < nameOf f then
        balance_avl_tree (.node f (insert_into_avl_tree l file) r p h)
      else
        balance_avl_tree (.node f l (insert_into_avl_tree r file) p h)

/-- Models `search_avl_tree` from src/main.rs: exact-path search that branches by
comparing the stored *path* against the query, although the tree is
ordered by *name*. -/
def search_avl_tree : AVLTree → String → Option FileMetadata
  | .nil, _ => none
  | .node none _ _ _ _, _ => none
  | .node (some file) l r _ _, file_path =>
      if file.path = file_path then some file
      else if file.path < file_path then search_avl_tree r file_path
      else search_avl_tree l file_path

/-- In-order traversal of a tree (left, node, right); the entry list a
tree holds, in key order. -/
def inorder : AVLTree → List FileMetadata
  | .nil => []
  | .node f l r _ _ => inorder l ++ f.toList ++ inorder r

/-- Folding `root = Some(insert_into_avl_tree(root, e))` over a list of
entries starting from `None`, exactly as `build_avl_tree` accumulates one
directory's entries. -/
def buildTree (es : List FileMetadata) : AVLTree :=
  es.foldl insert_into_avl_tree .nil

/-- Every node stores `some` file (true of every tree the program
builds). -/
def Filled : AVLTree → Prop
  | .nil => True
  | .node f l r _ _ => f.isSome ∧ Filled l ∧ Filled r

/-- The AVL shape invariant of claim C3, at every node: the stored height
is `1 + max` of the children's heights (`0` for an absent child) and the
children's heights differ by at most one. -/
def Avl : AVLTree → Prop
  | .nil => True
  | .node _ l r _ h =>
      Avl l ∧ Avl r ∧ h = 1 + max (get_height l) (get_height r) ∧
        (get_height l - get_height r).natAbs ≤ 1

/-! ### Abstract filesystem model and the two walks

`FSItem` models what the walks observe about one directory entry:
* `file name size` — `file_type().is_file()`, with `metadata().len()`;
* `dir name sizeRes readable children` — `file_type().is_dir()`;
  `sizeRes` is the result of `fs_extra::dir::get_size` (`none` = `Err`),
  `readable` is whether `fs::read_dir` on it succeeds (`false` models
  `fs::read_dir(path).ok() == None`), `children` its listing when
  readable;
* `other name size` — an entry that is neither file nor directory
  (the final `else` branch of `build_avl_tree`);
* `errEntry` — the iterator yielding `Err(e)` for this entry;
* `ftErr` — an entry whose `entry.file_type()` read fails: both walks
  call `.unwrap()` on it (main.rs:98 and main.rs:194) and panic;
* `metaErr entry` — an entry whose `entry.file_type()` read succeeds but
  whose `entry.metadata()` read fails: `build_avl_tree` calls
  `entry.metadata().unwrap()` on every entry (main.rs:195) and panics,
  while `build_hash_table` never reads metadata and treats the entry
  exactly as the wrapped `entry`.

`entry.path()` is the parent path joined with the name, modelled as
string concatenation with `"/"`. -/

inductive FSItem : Type where
  | file (name : String) (size : Nat) : FSItem
  | dir (name : String) (sizeRes : Option Nat) (readable : Bool)
      (children : List FSItem) : FSItem
  | other (name : String) (size : Nat) : FSItem
  | errEntry : FSItem
  | ftErr : FSItem
  | metaErr (entry : FSItem) : FSItem

/-- Outcome of running a walk over the abstract filesystem: either the
process panics (an `.unwrap()` on an `Err` value) or the function returns
a value. -/
inductive RunResult (α : Type) : Type where
  | panicked : RunResult α
  | ret (val : α) : RunResult α
deriving DecidableEq, Repr

/-- The loop body of `build_hash_table` from src/main.rs over the entries
of one directory: `Err` iterator entries are logged and skipped, an entry
whose `file_type()` read fails panics (`.unwrap()`, main.rs:98), a
metadata-read failure is invisible here (metadata is never read), files
are skipped, a directory whose `get_size` fails is logged and skipped, a
directory with a size is inserted into the table and recursed into — and
if that recursive call returns `None` (its `fs::read_dir` failed), the
`?` operator makes the caller return `None` as well, discarding the
accumulated table; a panic below propagates. -/
def hashLoop (path : String) : List FSItem → HashTable →
    RunResult (Option HashTable)
  | [], ht => .ret (some ht)
  | .errEntry :: rest, ht => hashLoop path rest ht
  | .ftErr :: _, _ => .panicked
  | .metaErr it :: rest, ht => hashLoop path (it :: rest) ht
  | .file _ _ :: rest, ht => hashLoop path rest ht
  | .other _ _ :: rest, ht => hashLoop path rest ht
  | .dir _ none _ _ :: rest, ht => hashLoop path rest ht
  | .dir name (some size) rb ch :: rest, ht =>
      match (if rb then
          hashLoop (path ++ "/" ++ name) ch
            (HashTable.insert ht
              ⟨name, path ++ "/" ++ name, size, FileType.Directory⟩)
        else .ret none) with
      | .panicked => .panicked
      | .ret none => .ret none
      | .ret (some ht2) => hashLoop path rest ht2

/-- Models `build_hash_table` from src/main.rs on a directory at `path`
whose `fs::read_dir` succeeds iff `readable`, listing `children`. -/
def build_hash_table (path : String) (readable : Bool)
    (children : List FSItem) (ht : HashTable) :
    RunResult (Option HashTable) :=
  if readable then hashLoop path children ht else .ret none

/-- The loop body of `build_avl_tree` from src/main.rs: a failing
`file_type()` or `metadata()` read panics (`.unwrap()`, main.rs:194-195);
files (and the `else` branch's non-file non-directory entries, recorded
with `FileType::Directory`) are inserted into the current directory's
tree; a subdirectory is recursed into, extending the roots vector but
leaving the current root untouched; `Err` iterator entries are logged and
skipped.  The recursion inlines `build_avl_tree`: when the child's
`read_dir` fails the recursive call returns early and pushes nothing,
otherwise it pushes its own root after its subdirectories' roots; a panic
below propagates. -/
def avlLoop (path : String) : List FSItem → AVLTree → List AVLTree →
    RunResult (AVLTree × List AVLTree)
  | [], root, vec => .ret (root, vec)
  | .errEntry :: rest, root, vec => avlLoop path rest root vec
  | .ftErr :: _, _, _ => .panicked
  | .metaErr _ :: _, _, _ => .panicked
  | .file name size :: rest, root, vec =>
      avlLoop path rest
        (insert_into_avl_tree root
          ⟨name, path ++ "/" ++ name, size, FileType.File⟩) vec
  | .other name size :: rest, root, vec =>
      avlLoop path rest
        (insert_into_avl_tree root
          ⟨name, path ++ "/" ++ name, size, FileType.Directory⟩) vec
  | .dir name _ rb ch :: rest, root, vec =>
      if rb then
        match avlLoop (path ++ "/" ++ name) ch .nil vec with
        | .panicked => .panicked
        | .ret (croot, vec2) => avlLoop path rest root (vec2 ++ [croot])
      else avlLoop path rest root vec

/-- Models `build_avl_tree` from src/main.rs on a directory at `path`: if
its `fs::read_dir` fails the function returns `None` (`= .nil`) having
pushed nothing; otherwise it builds the root from the directory's files,
pushes it onto the vector after the loop (hence after every root pushed
by the recursive calls), and returns it; a panic in the loop propagates. -/
def build_avl_tree (path : String) (readable : Bool)
    (children : List FSItem) (vec : List AVLTree) :
    RunResult (AVLTree × List AVLTree) :=
  if readable then
    match avlLoop path children .nil vec with
    | .panicked => .panicked
    | .ret pr => .ret (pr.1, pr.2 ++ [pr.1])
  else .ret (.nil, vec)

/-! ### Derived descriptions of the walks, used to state the claims -/

/-- Control outcomes a walk can have. -/
inductive WalkOutcome : Type where
  | panics : WalkOutcome
  | aborts : WalkOutcome
  | completes : WalkOutcome
deriving DecidableEq, Repr

/-- The control outcome of `hashLoop` over one listing, following the
walk's left-to-right order: a `file_type()` read failure reached first
panics; an unreadable listing of a visited (sized) subdirectory reached
first aborts; otherwise the walk completes.  `get_size` failures,
iterator errors and metadata-read failures do not end the hash walk. -/
def hashOutcome : List FSItem → WalkOutcome
  | [] => .completes
  | .ftErr :: _ => .panics
  | .metaErr it :: rest => hashOutcome (it :: rest)
  | .dir _ (some _) rb ch :: rest =>
      if rb then
        match hashOutcome ch with
        | .panics => .panics
        | .aborts => .aborts
        | .completes => hashOutcome rest
      else .aborts
  | _ :: rest => hashOutcome rest

/-- Whether the AVL walk panics on this listing: it does exactly when a
`file_type()` or `metadata()` read failure occurs here or inside a
readable subdirectory.  (The AVL walk has no abort mode: an unreadable
subdirectory listing only ends that one recursive call.) -/
def avlPanics : List FSItem → Bool
  | [] => false
  | .ftErr :: _ => true
  | .metaErr _ :: _ => true
  | .dir _ _ rb ch :: rest => (rb && avlPanics ch) || avlPanics rest
  | _ :: rest => avlPanics rest

/-- The directory entries `build_hash_table` inserts, in insertion order:
each sized directory contributes its entry and then, recursively, its
children's; directories whose `get_size` failed contribute nothing and
are not recursed into; a metadata-read failure is invisible to this
walk.  (Meaningful for the table value only when the walk completes.) -/
def dirEntries (path : String) : List FSItem → List FileMetadata
  | [] => []
  | .dir name (some size) _ ch :: rest =>
      ⟨name, path ++ "/" ++ name, size, FileType.Directory⟩ ::
        (dirEntries (path ++ "/" ++ name) ch ++ dirEntries path rest)
  | .metaErr it :: rest => dirEntries path (it :: rest)
  | _ :: rest => dirEntries path rest

/-- The AVL root that `build_avl_tree` computes for one directory level:
the fold of `insert_into_avl_tree` over its files and `other` entries.
(Meaningful only when the walk does not panic.) -/
def levelRoot (path : String) : List FSItem → AVLTree → AVLTree
  | [], root => root
  | .file name size :: rest, root =>
      levelRoot path rest
        (insert_into_avl_tree root
          ⟨name, path ++ "/" ++ name, size, FileType.File⟩)
  | .other name size :: rest, root =>
      levelRoot path rest
        (insert_into_avl_tree root
          ⟨name, path ++ "/" ++ name, size, FileType.Directory⟩)
  | _ :: rest, root => levelRoot path rest root

/-- The roots appended by the subdirectory recursions inside one
directory's loop, in order.  (Meaningful only when the walk does not
panic.) -/
def subRoots (path : String) : List FSItem → List AVLTree
  | [] => []
  | .dir name _ rb ch :: rest =>
      (if rb then
        subRoots (path ++ "/" ++ name) ch ++
          [levelRoot (path ++ "/" ++ name) ch .nil]
      else []) ++ subRoots path rest
  | _ :: rest => subRoots path rest

/-- All roots `build_avl_tree` appends for a directory: its
subdirectories' roots (recursively, in loop order) followed by its own
root — a post-order listing. -/
def rootsOf (path : String) (readable : Bool)
    (children : List FSItem) : List AVLTree :=
  if readable then subRoots path children ++ [levelRoot path children .nil]
  else []

/-! ## Theorems -/

/-! ### C10 — slot computation is in bounds for a non-empty table -/

/-- C10: for a table constructed by `HashTable.new n` with `n > 0`, the
table has exactly `n` buckets, the bucket index `HashTable.insert`
computes (the FNV-1a hash of the formatted key modulo the bucket count) is
strictly less than `n`, and inserting preserves the bucket count — so the
bucket indexing never goes out of bounds and the remainder-by-zero case is
unreachable. -/
theorem hash_slot_in_bounds (n : Nat) (file : FileMetadata) (h : 0 < n) :
    (HashTable.new n).buckets.length = n ∧
    (HashTable.new n).slotOf file < n ∧
    ((HashTable.new n).insert file).buckets.length = n := by
  have hlen : (HashTable.new n).buckets.length = n := by
    simp [HashTable.new]
  refine ⟨hlen, ?_, ?_⟩
  · simpa [HashTable.slotOf, hlen] using
      Nat.mod_lt (hashFn (keyString file)) h
  · simp [HashTable.insert, hlen]

theorem hash_slot_in_bounds_witness :
    0 < 3 ∧
    ((HashTable.new 3).buckets.length = 3 ∧
      (HashTable.new 3).slotOf ⟨"a", "p", 1, FileType.File⟩ < 3 ∧
      ((HashTable.new 3).insert ⟨"a", "p", 1, FileType.File⟩).buckets.length
        = 3) :=
  ⟨by decide, hash_slot_in_bounds 3 ⟨"a", "p", 1, FileType.File⟩ (by decide)⟩

/-! ### C5 — the key is the FNV-1a hash of the *Debug-formatted* triple -/

/-- C5 counterexample: the key actually hashed is
`format!("{:?}{:?}{}", name, path, size)`, whose `Debug` formatting wraps
the name and the path in quote characters; already for the entry
`(name "a", path "p", size 0)` the hashed key `"a""p"0` differs from the
plain concatenation `ap0`, and the two FNV-1a values differ. -/
theorem hash_key_not_plain_concatenation :
    hashFn (keyString ⟨"a", "p", 0, FileType.Directory⟩) ≠
      fnv1a (strBytes ("a" ++ "p" ++ Nat.repr 0)) := by
  decide

/-- C5 (amended): the key derivation equals 64-bit FNV-1a — offset basis
`14695981039346656037`, prime `1099511628211`, each byte XORed into the
hash then multiplied by the prime with wrapping multiplication — applied
to the UTF-8 bytes of the *Debug-formatted* name and path (each wrapped in
quotes, with escapes) followed by the decimal size, and the bucket chosen
by `insert` is that hash modulo the bucket count. -/
theorem hash_key_derivation (t : HashTable) (file : FileMetadata) :
    hashFn (keyString file) =
      fnv1a (strBytes (rustDebug file.name ++ rustDebug file.path ++
        Nat.repr file.size)) ∧
    fnv1a [] = FNV_OFFSET_BASIS ∧
    (∀ bs b, fnv1a (bs ++ [b]) = ((fnv1a bs ^^^ b) * FNV_PRIME) % 2 ^ 64) ∧
    t.insert file =
      ⟨t.buckets.set (hashFn (keyString file) % t.buckets.length)
        (t.buckets.getD (hashFn (keyString file) % t.buckets.length) []
          ++ [file])⟩ := by
  refine ⟨rfl, rfl, ?_, rfl⟩
  intro bs b
  simp [fnv1a, fnvStep, List.foldl_append]

/-! ### C9 — load factor bounds -/

/-- C9: the load factor (non-empty buckets divided by bucket count, the
quotient `print_hash_table` computes) lies in `[0, 1]`; it is `0` exactly
when every bucket is empty and `1` only when every bucket is
non-empty. -/
theorem load_factor_bounds (t : HashTable) :
    0 ≤ load_factor t ∧ load_factor t ≤ 1 ∧
    (load_factor t = 0 ↔ ∀ b ∈ t.buckets, b = []) ∧
    (load_factor t = 1 → ∀ b ∈ t.buckets, b ≠ []) := by
  have hle : bucketCountNonEmpty t ≤ t.buckets.length :=
    List.length_filter_le _ _
  refine ⟨?_, ?_, ?_, ?_⟩
  · exact div_nonneg (Nat.cast_nonneg _) (Nat.cast_nonneg _)
  · rcases Nat.eq_zero_or_pos t.buckets.length with hd | hd
    · have hn : bucketCountNonEmpty t = 0 := Nat.le_zero.mp (hd ▸ hle)
      simp [load_factor, hn]
    · rw [load_factor, div_le_one (by exact_mod_cast hd)]
      exact_mod_cast hle
  · rw [load_factor, div_eq_zero_iff]
    constructor
    · rintro (h0 | h0) b hb
      · have hn : bucketCountNonEmpty t = 0 := by exact_mod_cast h0
        have hnil := List.length_eq_zero.mp hn
        have := List.filter_eq_nil_iff.mp hnil b hb
        simpa using this
      · have hd : t.buckets.length = 0 := by exact_mod_cast h0
        rw [List.length_eq_zero.mp hd] at hb
        simp at hb
    · intro hall
      left
      have : bucketCountNonEmpty t = 0 := by
        rw [bucketCountNonEmpty, List.length_eq_zero,
          List.filter_eq_nil_iff]
        intro b hb
        simp [hall b hb]
      exact_mod_cast this
  · intro h1 b hb hbnil
    have hd : t.buckets.length ≠ 0 := by
      intro hd0
      have hn : bucketCountNonEmpty t = 0 := Nat.le_zero.mp (hd0 ▸ hle)
      rw [load_factor, hn, hd0] at h1
      norm_num at h1
    have hcast : (bucketCountNonEmpty t : ℚ) = (t.buckets.length : ℚ) :=
      (div_eq_one_iff_eq (by exact_mod_cast hd)).mp h1
    have hlen : bucketCountNonEmpty t = t.buckets.length := by
      exact_mod_cast hcast
    have hall := List.filter_length_eq_length.mp hlen b hb
    simp [hbnil] at hall

theorem load_factor_bounds_witness :
    0 ≤ load_factor (HashTable.new 2) ∧ load_factor (HashTable.new 2) ≤ 1 ∧
    (load_factor (HashTable.new 2) = 0 ↔
      ∀ b ∈ (HashTable.new 2).buckets, b = []) ∧
    (load_factor (HashTable.new 2) = 1 →
      ∀ b ∈ (HashTable.new 2).buckets, b ≠ []) :=
  load_factor_bounds (HashTable.new 2)

/-! ### In-order traversal lemmas for rotations and rebalancing -/

lemma inorder_update_height (t : AVLTree) :
    inorder (update_height t) = inorder t := by
  cases t <;> simp [update_height, inorder]

lemma inorder_rotate_left (t : AVLTree) :
    inorder (rotate_left t) = inorder t := by
  cases t with
  | nil => rfl
  | node f l r p h =>
    cases r with
    | nil => rfl
    | node rf rl rr rp rh =>
      simp [rotate_left, update_height, inorder, List.append_assoc]

lemma inorder_rotate_right (t : AVLTree) :
    inorder (rotate_right t) = inorder t := by
  cases t with
  | nil => rfl
  | node f l r p h =>
    cases l with
    | nil => rfl
    | node lf ll lr lp lh =>
      simp [rotate_right, update_height, inorder, List.append_assoc]

lemma inorder_balance (t : AVLTree) :
    inorder (balance_avl_tree t) = inorder t := by
  cases t with
  | nil => rfl
  | node f l r p h =>
    simp only [balance_avl_tree]
    split_ifs <;>
      simp [inorder_rotate_left, inorder_rotate_right, inorder]

/-- The in-order entry list of an insert: the new entry joins the old
entries, as a permutation (rotations rearrange but never drop or
duplicate). -/
lemma insert_perm (t : AVLTree) (e : FileMetadata) :
    List.Perm (inorder (insert_into_avl_tree t e)) (e :: inorder t) := by
  induction t with
  | nil => simp [insert_into_avl_tree, AVLTreeNode.new, inorder]
  | node f l r p h ihl ihr ihp =>
    simp only [insert_into_avl_tree]
    split_ifs with hcmp
    · rw [inorder_balance]
      simp only [inorder, List.append_assoc]
      exact ihl.append_right _
    · rw [inorder_balance]
      simp only [inorder]
      exact List.Perm.trans
        (List.Perm.append_left (inorder l ++ f.toList) ihr)
        (@List.perm_middle _ e (inorder l ++ f.toList) (inorder r))

lemma buildTree_perm (es : List FileMetadata) :
    List.Perm (inorder (buildTree es)) es := by
  suffices h : ∀ (es : List FileMetadata) (t : AVLTree),
      List.Perm (inorder (es.foldl insert_into_avl_tree t))
        (es ++ inorder t) by
    simpa [buildTree, inorder] using h es .nil
  intro es
  induction es with
  | nil => intro t; simp
  | cons e rest ih =>
    intro t
    exact List.Perm.trans (ih (insert_into_avl_tree t e))
      (List.Perm.trans
        (List.Perm.append_left rest (insert_perm t e))
        (@List.perm_middle _ e rest (inorder t)))

/-! ### C7 — inserts retain every entry, duplicates included -/

/-- C7: for every tree and entry, the multiset of entries held by
`insert_into_avl_tree root e` is the multiset of entries of `root` plus
`e`: duplicates are retained and rotations lose nothing. -/
theorem insert_adds_exactly_one_entry (t : AVLTree) (e : FileMetadata) :
    (↑(inorder (insert_into_avl_tree t e)) : Multiset FileMetadata) =
      e ::ₘ (↑(inorder t) : Multiset FileMetadata) := by
  exact_mod_cast Quot.sound (insert_perm t e)

/-! ### Every built node carries `some` file -/

lemma filled_rotate_left (t : AVLTree) (hf : Filled t) :
    Filled (rotate_left t) := by
  cases t with
  | nil => exact hf
  | node f l r p h =>
    cases r with
    | nil => exact hf
    | node rf rl rr rp rh =>
      obtain ⟨h1, h2, h3, h4, h5⟩ : f.isSome ∧ Filled l ∧ rf.isSome ∧
          Filled rl ∧ Filled rr := ⟨hf.1, hf.2.1, hf.2.2.1, hf.2.2.2.1,
            hf.2.2.2.2⟩
      exact ⟨h3, ⟨h1, h2, h4⟩, h5⟩

lemma filled_rotate_right (t : AVLTree) (hf : Filled t) :
    Filled (rotate_right t) := by
  cases t with
  | nil => exact hf
  | node f l r p h =>
    cases l with
    | nil => exact hf
    | node lf ll lr lp lh =>
      obtain ⟨h1, h2, h3, h4, h5⟩ : f.isSome ∧ lf.isSome ∧ Filled ll ∧
          Filled lr ∧ Filled r := ⟨hf.1, hf.2.1.1, hf.2.1.2.1,
            hf.2.1.2.2, hf.2.2⟩
      exact ⟨h2, h3, ⟨h1, h4, h5⟩⟩

lemma filled_balance (t : AVLTree) (hf : Filled t) :
    Filled (balance_avl_tree t) := by
  cases t with
  | nil => exact hf
  | node f l r p h =>
    obtain ⟨h1, h2, h3⟩ : f.isSome ∧ Filled l ∧ Filled r := hf
    simp only [balance_avl_tree]
    split_ifs
    · exact filled_rotate_right _ ⟨h1, h2, h3⟩
    · exact filled_rotate_right _ ⟨h1, filled_rotate_left _ h2, h3⟩
    · exact filled_rotate_left _ ⟨h1, h2, h3⟩
    · exact filled_rotate_left _ ⟨h1, h2, filled_rotate_right _ h3⟩
    · exact ⟨h1, h2, h3⟩

lemma filled_insert (t : AVLTree) (e : FileMetadata) (hf : Filled t) :
    Filled (insert_into_avl_tree t e) := by
  induction t with
  | nil => exact ⟨rfl, trivial, trivial⟩
  | node f l r p h ihl ihr ihp =>
    obtain ⟨h1, h2, h3⟩ : f.isSome ∧ Filled l ∧ Filled r := hf
    simp only [insert_into_avl_tree]
    split_ifs
    · exact filled_balance _ ⟨h1, ihl h2, h3⟩
    · exact filled_balance _ ⟨h1, h2, ihr h3⟩

/-! ### In-order traversal is sorted by name -/

/-- Decomposition of a pairwise relation over the three-part in-order
list of one node. -/
lemma pairwise_node_iff {α : Type} (r : α → α → Prop) (f : α)
    (L R : List α) :
    (L ++ [f] ++ R).Pairwise r ↔
      L.Pairwise r ∧
      R.Pairwise r ∧
      (∀ a ∈ L, r a f) ∧
      (∀ b ∈ R, r f b) ∧
      (∀ a ∈ L, ∀ b ∈ R, r a b) := by
  rw [List.append_assoc, List.pairwise_append]
  show _ ∧ List.Pairwise _ (f :: R) ∧ _ ↔ _
  rw [List.pairwise_cons]
  constructor
  · rintro ⟨g1, ⟨g2, g3⟩, g4⟩
    refine ⟨g1, g3, ?_, g2, ?_⟩
    · intro a ha
      exact g4 a ha f (by simp)
    · intro a ha b hb
      exact g4 a ha b (by simp [hb])
  · rintro ⟨g1, g2, g3, g4, g5⟩
    refine ⟨g1, ⟨g4, g2⟩, ?_⟩
    intro a ha b hb
    rcases List.mem_cons.mp hb with rfl | hb
    · exact g3 a ha
    · exact g5 a ha b hb

/-- Inserting preserves sortedness-by-name of the in-order traversal. -/
lemma sorted_insert (t : AVLTree) (e : FileMetadata) (hf : Filled t)
    (hs : (inorder t).Pairwise (fun a b => a.name ≤ b.name)) :
    (inorder (insert_into_avl_tree t e)).Pairwise
      (fun a b => a.name ≤ b.name) := by
  induction t with
  | nil => simp [insert_into_avl_tree, AVLTreeNode.new, inorder]
  | node f l r p h ihl ihr ihp =>
    obtain ⟨h1, h2, h3⟩ : f.isSome ∧ Filled l ∧ Filled r := hf
    obtain ⟨fm, rfl⟩ := Option.isSome_iff_exists.mp h1
    rw [show inorder (AVLTree.node (some fm) l r p h) =
        inorder l ++ [fm] ++ inorder r by simp [inorder]] at hs
    obtain ⟨hsl, hsr, hlf, hfr, hlr⟩ := (pairwise_node_iff _ fm _ _).mp hs
    simp only [insert_into_avl_tree]
    split_ifs with hcmp
    · rw [inorder_balance, show
        inorder (AVLTree.node (some fm) (insert_into_avl_tree l e) r p h) =
          inorder (insert_into_avl_tree l e) ++ [fm] ++ inorder r by
            simp [inorder]]
      refine (pairwise_node_iff _ fm _ _).mpr
        ⟨ihl h2 hsl, hsr, ?_, hfr, ?_⟩
      · intro a ha
        rcases List.mem_cons.mp ((insert_perm l e).mem_iff.mp ha) with
          rfl | ha'
        · exact le_of_lt hcmp
        · exact hlf a ha'
      · intro a ha b hb
        rcases List.mem_cons.mp ((insert_perm l e).mem_iff.mp ha) with
          rfl | ha'
        · exact le_trans (le_of_lt hcmp) (hfr b hb)
        · exact hlr a ha' b hb
    · rw [inorder_balance, show
        inorder (AVLTree.node (some fm) l (insert_into_avl_tree r e) p h) =
          inorder l ++ [fm] ++ inorder (insert_into_avl_tree r e) by
            simp [inorder]]
      refine (pairwise_node_iff _ fm _ _).mpr
        ⟨hsl, ihr h3 hsr, hlf, ?_, ?_⟩
      · intro b hb
        rcases List.mem_cons.mp ((insert_perm r e).mem_iff.mp hb) with
          rfl | hb'
        · exact not_lt.mp hcmp
        · exact hfr b hb'
      · intro a ha b hb
        rcases List.mem_cons.mp ((insert_perm r e).mem_iff.mp hb) with
          rfl | hb'
        · exact le_trans (hlf a ha) (not_lt.mp hcmp)
        · exact hlr a ha b hb'

lemma buildTree_filled (es : List FileMetadata) : Filled (buildTree es) := by
  suffices h : ∀ (es : List FileMetadata) (t : AVLTree), Filled t →
      Filled (es.foldl insert_into_avl_tree t) from h es .nil trivial
  intro es
  induction es with
  | nil => intro t ht; exact ht
  | cons e rest ih => intro t ht; exact ih _ (filled_insert t e ht)

lemma buildTree_sorted (es : List FileMetadata) :
    (inorder (buildTree es)).Pairwise (fun a b => a.name ≤ b.name) := by
  suffices h : ∀ (es : List FileMetadata) (t : AVLTree), Filled t →
      (inorder t).Pairwise (fun a b => a.name ≤ b.name) →
      (inorder (es.foldl insert_into_avl_tree t)).Pairwise
        (fun a b => a.name ≤ b.name) by
    exact h es .nil trivial (by simp [inorder])
  intro es
  induction es with
  | nil => intro t _ hs; exact hs
  | cons e rest ih =>
    intro t ht hs
    exact ih _ (filled_insert t e ht) (sorted_insert t e ht hs)

/-! ### C6 — descent rule and in-order name order -/

/-- C6: insertion compares the new entry's name with the current node's
name, descending left exactly when strictly less and right otherwise, and
an in-order traversal of any tree produced by a sequence of inserts
(starting from the empty tree) lists entries in non-decreasing
lexicographic name order. -/
theorem insert_descends_by_name_and_inorder_sorted :
    (∀ (f : Option FileMetadata) (l r p : AVLTree) (ht : Int)
        (e : FileMetadata),
      insert_into_avl_tree (.node f l r p ht) e =
        if e.name < nameOf f then
          balance_avl_tree (.node f (insert_into_avl_tree l e) r p ht)
        else
          balance_avl_tree (.node f l (insert_into_avl_tree r e) p ht)) ∧
    (∀ es : List FileMetadata,
      (inorder (buildTree es)).Sorted (fun a b => a.name ≤ b.name)) :=
  ⟨fun _ _ _ _ _ _ => rfl, buildTree_sorted⟩

/-! ### C2 — exact-path search -/

/-- When the name ordering of the entries in a tree agrees with their path
ordering (and paths are pairwise distinct), the path-comparing search does
find every stored entry. -/
lemma search_finds (t : AVLTree) (hf : Filled t)
    (hs : (inorder t).Pairwise (fun a b => a.name ≤ b.name))
    (hag : ∀ a ∈ inorder t, ∀ b ∈ inorder t,
      (a.name < b.name ↔ a.path < b.path))
    (hdist : (inorder t).Pairwise (fun a b => a.path ≠ b.path)) :
    ∀ e ∈ inorder t, search_avl_tree t e.path = some e := by
  induction t with
  | nil => simp [inorder]
  | node f l r p h ihl ihr ihp =>
    obtain ⟨h1, h2, h3⟩ : f.isSome ∧ Filled l ∧ Filled r := hf
    obtain ⟨fm, rfl⟩ := Option.isSome_iff_exists.mp h1
    have hio : inorder (AVLTree.node (some fm) l r p h) =
        inorder l ++ [fm] ++ inorder r := by simp [inorder]
    rw [hio] at hs hag hdist
    obtain ⟨hsl, hsr, hlf, hfr, hlr⟩ :=
      (pairwise_node_iff _ fm _ _).mp hs
    obtain ⟨hdl, hdr, hdlf, hdfr, hdlr⟩ :=
      (pairwise_node_iff _ fm _ _).mp hdist
    have hmem : ∀ x : FileMetadata,
        x ∈ inorder l ∨ x = fm ∨ x ∈ inorder r →
          x ∈ inorder l ++ [fm] ++ inorder r := by
      intro x hx
      rcases hx with hx | hx | hx
      · exact List.mem_append.mpr (Or.inl (List.mem_append.mpr (Or.inl hx)))
      · exact List.mem_append.mpr (Or.inl (List.mem_append.mpr
          (Or.inr (by simp [hx]))))
      · exact List.mem_append.mpr (Or.inr hx)
    intro e he
    rw [hio] at he
    have hcase : e ∈ inorder l ∨ e = fm ∨ e ∈ inorder r := by
      rcases List.mem_append.mp he with he' | he'
      · rcases List.mem_append.mp he' with he'' | he''
        · exact Or.inl he''
        · exact Or.inr (Or.inl (by simpa using he''))
      · exact Or.inr (Or.inr he')
    simp only [search_avl_tree]
    rcases lt_trichotomy fm.path e.path with hlt | heq | hgt
    · -- search descends right
      rw [if_neg (ne_of_lt hlt), if_pos hlt]
      have hname : fm.name < e.name :=
        (hag fm (hmem fm (Or.inr (Or.inl rfl))) e (hmem e hcase)).mpr hlt
      have her : e ∈ inorder r := by
        rcases hcase with hel | rfl | her
        · exact absurd hname (not_lt.mpr (hlf e hel))
        · exact absurd hname (lt_irrefl _)
        · exact her
      refine ihr h3 hsr ?_ hdr e her
      intro a ha b hb
      exact hag a (hmem a (Or.inr (Or.inr ha))) b (hmem b (Or.inr (Or.inr hb)))
    · -- found: equal paths force equal entries
      have hef : fm = e := by
        by_contra hne
        exact List.Pairwise.forall (fun a b hab => Ne.symm hab) hdist
          (hmem fm (Or.inr (Or.inl rfl))) (hmem e hcase) hne heq
      rw [if_pos heq, hef]
    · -- search descends left
      rw [if_neg (ne_of_gt hgt), if_neg (not_lt.mpr (le_of_lt hgt))]
      have hname : e.name < fm.name :=
        (hag e (hmem e hcase) fm (hmem fm (Or.inr (Or.inl rfl)))).mpr hgt
      have hel : e ∈ inorder l := by
        rcases hcase with hel | rfl | her
        · exact hel
        · exact absurd hname (lt_irrefl _)
        · exact absurd hname (not_lt.mpr (hfr e her))
      refine ihl h2 hsl ?_ hdl e hel
      intro a ha b hb
      exact hag a (hmem a (Or.inl ha)) b (hmem b (Or.inl hb))

/-- C2 (amended): the round trip holds under the precondition that makes
the path-comparing descent sound — whenever the inserted entries' name
ordering agrees with their path ordering and their paths are pairwise
distinct, `search_avl_tree` on the built tree returns each inserted entry
by its path.  (Without that agreement the search can miss, see the
counterexample.) -/
theorem search_roundtrip (es : List FileMetadata)
    (hagree : ∀ a ∈ es, ∀ b ∈ es, (a.name < b.name ↔ a.path < b.path))
    (hdist : es.Pairwise (fun a b => a.path ≠ b.path)) :
    ∀ e ∈ es, search_avl_tree (buildTree es) e.path = some e := by
  have hperm := buildTree_perm es
  intro e he
  refine search_finds (buildTree es) (buildTree_filled es)
    (buildTree_sorted es) ?_ ?_ e (hperm.mem_iff.mpr he)
  · intro a ha b hb
    exact hagree a (hperm.mem_iff.mp ha) b (hperm.mem_iff.mp hb)
  · exact (hperm.pairwise_iff (fun hab => Ne.symm hab)).mpr hdist

/-- C2 counterexample: the tree is ordered by name but searched by path.
Inserting `(name "b", path "a")` then `(name "a", path "b")` puts the
second entry in the left subtree, while the path comparison at the root
sends the search for path `"b"` to the right; the inserted entry is not
found. -/
theorem search_roundtrip_fails :
    ¬ (∀ e ∈ [(⟨"b", "a", 0, FileType.File⟩ : FileMetadata),
        ⟨"a", "b", 0, FileType.File⟩],
      search_avl_tree
        (buildTree [(⟨"b", "a", 0, FileType.File⟩ : FileMetadata),
          ⟨"a", "b", 0, FileType.File⟩]) e.path = some e) := by
  intro hall
  have hnone : search_avl_tree
      (buildTree [(⟨"b", "a", 0, FileType.File⟩ : FileMetadata),
        ⟨"a", "b", 0, FileType.File⟩]) "b" = none := by
    simp [buildTree, insert_into_avl_tree, AVLTreeNode.new, nameOf,
      balance_avl_tree, get_height, AVLTree.left, AVLTree.right,
      search_avl_tree]
    decide
  have h2 := hall ⟨"a", "b", 0, FileType.File⟩ (by simp)
  rw [show (⟨"a", "b", 0, FileType.File⟩ : FileMetadata).path = "b"
    from rfl] at h2
  rw [hnone] at h2
  exact Option.noConfusion h2

theorem search_roundtrip_witness :
    search_avl_tree
      (buildTree [(⟨"a", "a", 1, FileType.File⟩ : FileMetadata),
        ⟨"b", "b", 2, FileType.File⟩]) "b" =
      some ⟨"b", "b", 2, FileType.File⟩ := by
  have h := search_roundtrip
    [(⟨"a", "a", 1, FileType.File⟩ : FileMetadata),
      ⟨"b", "b", 2, FileType.File⟩]
    (by intro a ha b hb; fin_cases ha <;> fin_cases hb <;> simp)
    (by simp)
    ⟨"b", "b", 2, FileType.File⟩ (by simp)
  exact h

/-! ### C3 — the AVL balance invariant -/

lemma get_height_nil : get_height AVLTree.nil = 0 := rfl

lemma get_height_node (f : Option FileMetadata) (l r p : AVLTree)
    (h : Int) : get_height (AVLTree.node f l r p h) = h := rfl

lemma AVLTree.left_node (f : Option FileMetadata) (l r p : AVLTree)
    (h : Int) : (AVLTree.node f l r p h).left = l := rfl

lemma AVLTree.right_node (f : Option FileMetadata) (l r p : AVLTree)
    (h : Int) : (AVLTree.node f l r p h).right = r := rfl

lemma avl_height_nonneg (t : AVLTree) : Avl t → 0 ≤ get_height t := by
  induction t with
  | nil => intro _; rw [get_height_nil]
  | node f l r p h ihl ihr ihp =>
    intro ht
    obtain ⟨hal, har, hh, hb⟩ :
      Avl l ∧ Avl r ∧ h = 1 + max (get_height l) (get_height r) ∧
        (get_height l - get_height r).natAbs ≤ 1 := ht
    have h1 := ihl hal
    have h2 := ihr har
    rw [get_height_node]
    omega

/-- Rebalancing a node whose left subtree is exactly two levels taller
than its right subtree restores the AVL invariant without changing the
subtree height, provided (as insertion guarantees) the taller child's two
subtrees have different heights. -/
lemma balance_left (f : Option FileMetadata) (p : AVLTree) (h0 : Int)
    (l r : AVLTree) (hal : Avl l) (har : Avl r)
    (hlh : get_height l = get_height r + 2)
    (hne : get_height (AVLTree.left l) ≠ get_height (AVLTree.right l)) :
    Avl (balance_avl_tree (.node f l r p h0)) ∧
    get_height (balance_avl_tree (.node f l r p h0)) = get_height l := by
  have hr0 : 0 ≤ get_height r := avl_height_nonneg r har
  cases l with
  | nil =>
    exfalso
    rw [get_height_nil] at hlh
    omega
  | node lf ll lr2 lp lh =>
    obtain ⟨hall, halr, hlhh, hlbal⟩ :
      Avl ll ∧ Avl lr2 ∧
        lh = 1 + max (get_height ll) (get_height lr2) ∧
        (get_height ll - get_height lr2).natAbs ≤ 1 := hal
    rw [get_height_node] at hlh
    simp only [AVLTree.left_node, AVLTree.right_node] at hne
    simp only [balance_avl_tree, AVLTree.left_node, AVLTree.right_node,
      get_height_node]
    split_ifs with h1 h2 h3 h4
    · -- single right rotation (left-left case)
      have hnum1 : (get_height lr2 - get_height r).natAbs ≤ 1 := by omega
      have hnum2 : (get_height ll -
          (1 + max (get_height lr2) (get_height r))).natAbs ≤ 1 := by omega
      have hheight : 1 + max (get_height ll)
          (1 + max (get_height lr2) (get_height r)) = lh := by omega
      exact ⟨⟨hall, ⟨halr, har, rfl, hnum1⟩, rfl, hnum2⟩, hheight⟩
    · -- left-right double rotation
      cases lr2 with
      | nil =>
        exfalso
        rw [get_height_nil] at hlhh hlbal hne h2
        omega
      | node cf cl cr cp ch =>
        obtain ⟨hacl, hacr, hch, hcbal⟩ :
          Avl cl ∧ Avl cr ∧
            ch = 1 + max (get_height cl) (get_height cr) ∧
            (get_height cl - get_height cr).natAbs ≤ 1 := halr
        rw [get_height_node] at hlhh hlbal hne h2
        have hnum1 : (get_height ll - get_height cl).natAbs ≤ 1 := by
          omega
        have hnum2 : (get_height cr - get_height r).natAbs ≤ 1 := by omega
        have hnum3 : ((1 + max (get_height ll) (get_height cl)) -
            (1 + max (get_height cr) (get_height r))).natAbs ≤ 1 := by
          omega
        have hheight : 1 + max
            (1 + max (get_height ll) (get_height cl))
            (1 + max (get_height cr) (get_height r)) = lh := by omega
        exact ⟨⟨⟨hall, hacl, rfl, hnum1⟩, ⟨hacr, har, rfl, hnum2⟩, rfl,
          hnum3⟩, hheight⟩
    · exfalso; omega
    · exfalso; omega
    · exfalso; omega

/-- Mirror of `balance_left`: rebalancing a node whose right subtree is
exactly two levels taller restores the AVL invariant without changing the
subtree height. -/
lemma balance_right (f : Option FileMetadata) (p : AVLTree) (h0 : Int)
    (l r : AVLTree) (hal : Avl l) (har : Avl r)
    (hrh : get_height r = get_height l + 2)
    (hne : get_height (AVLTree.left r) ≠ get_height (AVLTree.right r)) :
    Avl (balance_avl_tree (.node f l r p h0)) ∧
    get_height (balance_avl_tree (.node f l r p h0)) = get_height r := by
  have hl0 : 0 ≤ get_height l := avl_height_nonneg l hal
  cases r with
  | nil =>
    exfalso
    rw [get_height_nil] at hrh
    omega
  | node rf rl rr rp rh =>
    obtain ⟨harl, harr, hrhh, hrbal⟩ :
      Avl rl ∧ Avl rr ∧
        rh = 1 + max (get_height rl) (get_height rr) ∧
        (get_height rl - get_height rr).natAbs ≤ 1 := har
    rw [get_height_node] at hrh
    simp only [AVLTree.left_node, AVLTree.right_node] at hne
    simp only [balance_avl_tree, AVLTree.left_node, AVLTree.right_node,
      get_height_node]
    split_ifs with h1 h2 h3 h4
    · exfalso; omega
    · exfalso; omega
    · -- single left rotation (right-right case)
      have hnum1 : (get_height l - get_height rl).natAbs ≤ 1 := by omega
      have hnum2 : ((1 + max (get_height l) (get_height rl)) -
          get_height rr).natAbs ≤ 1 := by omega
      have hheight : 1 + max
          (1 + max (get_height l) (get_height rl))
          (get_height rr) = rh := by omega
      exact ⟨⟨⟨hal, harl, rfl, hnum1⟩, harr, rfl, hnum2⟩, hheight⟩
    · -- right-left double rotation
      cases rl with
      | nil =>
        exfalso
        rw [get_height_nil] at hrhh hrbal hne h4
        omega
      | node gf gl gr gp gh =>
        obtain ⟨hagl, hagr, hgh, hgbal⟩ :
          Avl gl ∧ Avl gr ∧
            gh = 1 + max (get_height gl) (get_height gr) ∧
            (get_height gl - get_height gr).natAbs ≤ 1 := harl
        rw [get_height_node] at hrhh hrbal hne h4
        have hnum1 : (get_height l - get_height gl).natAbs ≤ 1 := by omega
        have hnum2 : (get_height gr - get_height rr).natAbs ≤ 1 := by
          omega
        have hnum3 : ((1 + max (get_height l) (get_height gl)) -
            (1 + max (get_height gr) (get_height rr))).natAbs ≤ 1 := by
          omega
        have hheight : 1 + max
            (1 + max (get_height l) (get_height gl))
            (1 + max (get_height gr) (get_height rr)) = rh := by omega
        exact ⟨⟨⟨hal, hagl, rfl, hnum1⟩, ⟨hagr, harr, rfl, hnum2⟩, rfl,
          hnum3⟩, hheight⟩
    · exfalso; omega

/-- When the two children differ in height by at most one, rebalancing
only recomputes the height. -/
lemma balance_noop (f : Option FileMetadata) (l r p : AVLTree) (h0 : Int)
    (hbal : (get_height l - get_height r).natAbs ≤ 1) :
    balance_avl_tree (.node f l r p h0) =
      .node f l r p (1 + max (get_height l) (get_height r)) := by
  simp only [balance_avl_tree]
  rw [if_neg (by omega), if_neg (by omega)]

/-- AVL insertion: the invariant is preserved, the height grows by at
most one, and a subtree whose height grew is either a fresh leaf or has
children of different heights (the fact that makes the parent's rotation
sound). -/
lemma insert_avl_aux (t : AVLTree) (ht : Avl t) (e : FileMetadata) :
    Avl (insert_into_avl_tree t e) ∧
    (get_height (insert_into_avl_tree t e) = get_height t ∨
      get_height (insert_into_avl_tree t e) = get_height t + 1) ∧
    (get_height (insert_into_avl_tree t e) = get_height t + 1 →
      get_height (insert_into_avl_tree t e) = 1 ∨
      get_height (AVLTree.left (insert_into_avl_tree t e)) ≠
        get_height (AVLTree.right (insert_into_avl_tree t e))) := by
  induction t with
  | nil =>
    simp only [insert_into_avl_tree, AVLTreeNode.new]
    refine ⟨⟨trivial, trivial, ?_, ?_⟩, ?_, ?_⟩
    · simp only [get_height_nil]; omega
    · simp only [get_height_nil]; omega
    · simp only [get_height_nil, get_height_node]; omega
    · intro _; exact Or.inl rfl
  | node f l r p h ihl ihr ihp =>
    obtain ⟨hal, har, hh, hbal⟩ :
      Avl l ∧ Avl r ∧ h = 1 + max (get_height l) (get_height r) ∧
        (get_height l - get_height r).natAbs ≤ 1 := ht
    have hl0 := avl_height_nonneg l hal
    have hr0 := avl_height_nonneg r har
    simp only [insert_into_avl_tree]
    split_ifs with hcmp
    · -- insertion went left
      obtain ⟨hal', hgrow', hbf'⟩ := ihl hal
      by_cases hsmall :
        (get_height (insert_into_avl_tree l e) - get_height r).natAbs ≤ 1
      · rw [balance_noop f _ r p h hsmall]
        refine ⟨⟨hal', har, rfl, hsmall⟩, ?_, ?_⟩
        · simp only [get_height_node]
          omega
        · intro hgrew
          simp only [get_height_node, AVLTree.left_node,
            AVLTree.right_node] at hgrew ⊢
          exact Or.inr (by omega)
      · have h2 : get_height (insert_into_avl_tree l e) =
            get_height r + 2 := by omega
        have hgrew : get_height (insert_into_avl_tree l e) =
            get_height l + 1 := by omega
        have hne : get_height (AVLTree.left (insert_into_avl_tree l e)) ≠
            get_height (AVLTree.right (insert_into_avl_tree l e)) := by
          rcases hbf' hgrew with h1' | hne'
          · exfalso; omega
          · exact hne'
        obtain ⟨hA, hH⟩ := balance_left f p h _ r hal' har h2 hne
        refine ⟨hA, ?_, ?_⟩
        · left
          rw [hH]
          simp only [get_height_node]
          omega
        · intro habs
          exfalso
          rw [hH] at habs
          simp only [get_height_node] at habs
          omega
    · -- insertion went right
      obtain ⟨har', hgrow', hbf'⟩ := ihr har
      by_cases hsmall :
        (get_height l - get_height (insert_into_avl_tree r e)).natAbs ≤ 1
      · rw [balance_noop f l _ p h hsmall]
        refine ⟨⟨hal, har', rfl, hsmall⟩, ?_, ?_⟩
        · simp only [get_height_node]
          omega
        · intro hgrew
          simp only [get_height_node, AVLTree.left_node,
            AVLTree.right_node] at hgrew ⊢
          exact Or.inr (by omega)
      · have h2 : get_height (insert_into_avl_tree r e) =
            get_height l + 2 := by omega
        have hgrew : get_height (insert_into_avl_tree r e) =
            get_height r + 1 := by omega
        have hne : get_height (AVLTree.left (insert_into_avl_tree r e)) ≠
            get_height (AVLTree.right (insert_into_avl_tree r e)) := by
          rcases hbf' hgrew with h1' | hne'
          · exfalso; omega
          · exact hne'
        obtain ⟨hA, hH⟩ := balance_right f p h l _ hal har' h2 hne
        refine ⟨hA, ?_, ?_⟩
        · left
          rw [hH]
          simp only [get_height_node]
          omega
        · intro habs
          exfalso
          rw [hH] at habs
          simp only [get_height_node] at habs
          omega

/-! C3's statement -/

/-- C3: after any sequence of inserts starting from the empty tree, every
node of the resulting tree is height-accurate (stored height is `1 + max`
of the children's heights, `0` for an absent child) and balanced (the
children's heights differ by at most one) — the recursive predicate
`Avl` states exactly this at every node. -/
theorem avl_invariant_after_inserts (es : List FileMetadata) :
    Avl (buildTree es) := by
  suffices h : ∀ (es : List FileMetadata) (t : AVLTree), Avl t →
      Avl (es.foldl insert_into_avl_tree t) from h es .nil trivial
  intro es
  induction es with
  | nil => intro t ht; exact ht
  | cons e rest ih => intro t ht; exact ih _ (insert_avl_aux t ht e).1


/-! ### Characterizing the two walks -/

/-- The loop `hashLoop`, characterized by the control outcome of the
listing: it panics when a `file_type()` read failure is reached, returns
`none` when a visited subdirectory listing failure is reached, and
otherwise returns the table with precisely the sized directory entries
added, in visitation order. -/
lemma hashLoop_spec (path : String) (items : List FSItem)
    (ht : HashTable) :
    hashLoop path items ht =
      match hashOutcome items with
      | .panics => .panicked
      | .aborts => .ret none
      | .completes => .ret (some (insertAll ht (dirEntries path items))) := by
  induction path, items, ht using hashLoop.induct with
  | case1 path ht =>
    simp [hashLoop, hashOutcome, dirEntries, insertAll]
  | case2 path rest ht ih =>
    simpa [hashLoop, hashOutcome, dirEntries] using ih
  | case3 path tail ht =>
    simp [hashLoop, hashOutcome]
  | case4 path it rest ht ih =>
    simpa [hashLoop, hashOutcome, dirEntries] using ih
  | case5 path name size rest ht ih =>
    simpa [hashLoop, hashOutcome, dirEntries] using ih
  | case6 path name size rest ht ih =>
    simpa [hashLoop, hashOutcome, dirEntries] using ih
  | case7 path name readable children rest ht ih =>
    simpa [hashLoop, hashOutcome, dirEntries] using ih
  | case8 path name size rb ch rest ht hpan ihch =>
    cases rb with
    | false => simp at hpan
    | true =>
      simp only [dite_true] at hpan
      rw [ihch] at hpan
      cases houtc : hashOutcome ch with
      | panics =>
        have hchild : hashLoop (path ++ "/" ++ name) ch
            (ht.insert ⟨name, path ++ "/" ++ name, size,
              FileType.Directory⟩) = .panicked := by
          rw [ihch, houtc]
        simp [hashLoop, hashOutcome, houtc, hchild]
      | aborts => simp [houtc] at hpan
      | completes => simp [houtc] at hpan
  | case9 path name size rb ch rest ht hnone ihch =>
    cases rb with
    | false => simp [hashLoop, hashOutcome]
    | true =>
      simp only [dite_true] at hnone
      rw [ihch] at hnone
      cases houtc : hashOutcome ch with
      | panics => simp [houtc] at hnone
      | aborts =>
        have hchild : hashLoop (path ++ "/" ++ name) ch
            (ht.insert ⟨name, path ++ "/" ++ name, size,
              FileType.Directory⟩) = .ret none := by
          rw [ihch, houtc]
        simp [hashLoop, hashOutcome, houtc, hchild]
      | completes => simp [houtc] at hnone
  | case10 path name size rb ch rest ht ht2 hsome ihch ihrest =>
    cases rb with
    | false => simp at hsome
    | true =>
      simp only [dite_true] at hsome
      rw [ihch] at hsome
      cases houtc : hashOutcome ch with
      | panics => simp [houtc] at hsome
      | aborts => simp [houtc] at hsome
      | completes =>
        simp [houtc] at hsome
        have hchild : hashLoop (path ++ "/" ++ name) ch
            (ht.insert ⟨name, path ++ "/" ++ name, size,
              FileType.Directory⟩) = .ret (some ht2) := by
          rw [ihch, houtc, hsome]
        simp [hashLoop, hashOutcome, hchild, ihrest, houtc, dirEntries,
          insertAll, List.foldl_append] at hsome ⊢
        rw [← hsome]

/-- The loop `avlLoop`, characterized: it panics exactly when a
`file_type()`/`metadata()` read failure occurs in the visited region, and
otherwise computes the current level's root by folding the files into the
tree while appending, for each readable subdirectory in order, that
subdirectory's roots. -/
lemma avlLoop_spec (path : String) (items : List FSItem) (root : AVLTree)
    (vec : List AVLTree) :
    avlLoop path items root vec =
      if avlPanics items then .panicked
      else .ret (levelRoot path items root, vec ++ subRoots path items) := by
  induction path, items, root, vec using avlLoop.induct with
  | case1 path root vec => simp [avlLoop, avlPanics, levelRoot, subRoots]
  | case2 path rest root vec ih =>
    simpa [avlLoop, avlPanics, levelRoot, subRoots] using ih
  | case3 path tail root vec => simp [avlLoop, avlPanics]
  | case4 path entry tail root vec => simp [avlLoop, avlPanics]
  | case5 path name size rest root vec ih =>
    simpa [avlLoop, avlPanics, levelRoot, subRoots] using ih
  | case6 path name size rest root vec ih =>
    simpa [avlLoop, avlPanics, levelRoot, subRoots] using ih
  | case7 path name sizeRes ch rest root vec hpan ihch =>
    rw [ihch] at hpan
    by_cases hp : avlPanics ch
    · have hchild : avlLoop (path ++ "/" ++ name) ch .nil vec =
          .panicked := by
        rw [ihch]
        simp [hp]
      simp [avlLoop, avlPanics, hp, hchild]
    · simp [hp] at hpan
  | case8 path name sizeRes ch rest root vec croot vec2 heq ihch ihrest =>
    rw [ihch] at heq
    by_cases hp : avlPanics ch
    · simp [hp] at heq
    · simp [hp] at heq
      obtain ⟨h1, h2⟩ := heq
      subst h1
      subst h2
      have hchild : avlLoop (path ++ "/" ++ name) ch .nil vec =
          .ret (levelRoot (path ++ "/" ++ name) ch .nil,
            vec ++ subRoots (path ++ "/" ++ name) ch) := by
        rw [ihch]
        simp [hp]
      simp only [avlLoop, hchild]
      rw [ihrest]
      simp [avlPanics, hp, levelRoot, subRoots, List.append_assoc]
  | case9 path name sizeRes rb ch rest root vec hrb ih =>
    have hrb' : rb = false := by simpa using hrb
    subst hrb'
    simpa [avlLoop, avlPanics, levelRoot, subRoots] using ih

/-- The walk `build_hash_table`, characterized: it panics on a reached
`file_type()` read failure, aborts (returning `None`, discarding
everything) on a reached listing failure of the root or of a visited
subdirectory, and otherwise returns the input table with the walk's sized
directory entries inserted in visitation order. -/
lemma build_hash_table_spec (path : String) (rb : Bool)
    (items : List FSItem) (ht : HashTable) :
    build_hash_table path rb items ht =
      match (if rb then hashOutcome items else WalkOutcome.aborts) with
      | .panics => .panicked
      | .aborts => .ret none
      | .completes => .ret (some (insertAll ht (dirEntries path items))) := by
  cases rb
  · simp [build_hash_table]
  · simp [build_hash_table, hashLoop_spec]

/-- The walk `build_avl_tree`, characterized: it panics exactly when a
`file_type()`/`metadata()` read fails in the visited region; otherwise it
never fails and extends the roots vector in place by the post-order roots
of the walked subtree. -/
lemma build_avl_tree_spec (path : String) (rb : Bool)
    (items : List FSItem) (vec : List AVLTree) :
    build_avl_tree path rb items vec =
      if rb && avlPanics items then .panicked
      else .ret ((if rb then levelRoot path items .nil else .nil),
        vec ++ rootsOf path rb items) := by
  cases rb
  · simp [build_avl_tree, rootsOf]
  · by_cases hp : avlPanics items
    · simp [build_avl_tree, avlLoop_spec, hp]
    · simp [build_avl_tree, avlLoop_spec, hp, rootsOf, List.append_assoc]

/-! ### C1 — failure policy of the walks -/

/-- C1 (amended): a failing `get_size` and a failing directory-entry
iterator read are logged and skipped, continuing with siblings (they
contribute nothing — the result is the same fold over the remaining
entries); but the other failure kinds are not skipped: a failing
`file_type()` (or, in `build_avl_tree`, `metadata()`) read panics the
whole walk through `.unwrap()`, and a failing directory *listing* makes
`build_hash_table` return `None`, discarding all accumulated entries,
while `build_avl_tree` merely omits that one subtree's roots and keeps
everything already accumulated. -/
theorem walk_failure_policy :
    (∀ (path : String) (rb : Bool) (items : List FSItem) (ht : HashTable),
      build_hash_table path rb items ht =
        match (if rb then hashOutcome items else WalkOutcome.aborts) with
        | .panics => .panicked
        | .aborts => .ret none
        | .completes =>
            .ret (some (insertAll ht (dirEntries path items)))) ∧
    (∀ (path : String) (rb : Bool) (items : List FSItem)
        (vec : List AVLTree),
      build_avl_tree path rb items vec =
        if rb && avlPanics items then .panicked
        else .ret ((if rb then levelRoot path items .nil else .nil),
          vec ++ rootsOf path rb items)) :=
  ⟨build_hash_table_spec, build_avl_tree_spec⟩

/-- C1 counterexample: single-entry failures do end the whole walk.  With
a first subdirectory whose size is readable but whose listing is not,
`build_hash_table` returns `None` for the whole walk — the readable
sibling `"b"` is not covered — although the same walk without the
unreadable entry succeeds; and an entry whose `file_type()` or
`metadata()` read fails is not logged-and-skipped either: it panics
`build_hash_table` resp. `build_avl_tree`, discarding everything. -/
theorem hash_walk_aborts_on_unreadable_sibling :
    build_hash_table "r" true
      [.dir "a" (some 1) false [], .dir "b" (some 2) true []]
      (HashTable.new 4) = .ret none ∧
    build_hash_table "r" true [.dir "b" (some 2) true []]
      (HashTable.new 4) =
      .ret (some ((HashTable.new 4).insert
        ⟨"b", "r/b", 2, FileType.Directory⟩)) ∧
    build_hash_table "r" true [.ftErr, .dir "b" (some 2) true []]
      (HashTable.new 4) = .panicked ∧
    build_avl_tree "r" true [.metaErr (.file "f" 1), .file "g" 2] [] =
      .panicked := by
  refine ⟨?_, ?_, ?_, ?_⟩
  · simp [build_hash_table, hashLoop]
  · simp [build_hash_table, hashLoop]
  · simp [build_hash_table, hashLoop]
  · simp [build_avl_tree, avlLoop]

/-! ### C4 — order of the roots vector -/

/-- C4 (amended): the roots vector reflects *post-order* visitation, not
pre-order: whenever `build_avl_tree` returns, it has appended, for each
directory, first the roots produced by its subdirectories (recursively,
in loop order) and only then the directory's own root — `rootsOf` places
the visited directory's own root last. -/
theorem avl_roots_postorder :
    (∀ (path : String) (rb : Bool) (items : List FSItem)
        (vec : List AVLTree) (pr : AVLTree × List AVLTree),
      build_avl_tree path rb items vec = .ret pr →
      pr.2 = vec ++ rootsOf path rb items) ∧
    (∀ (path : String) (items : List FSItem),
      rootsOf path true items =
        subRoots path items ++ [levelRoot path items .nil]) := by
  constructor
  · intro path rb items vec pr hpr
    rw [build_avl_tree_spec] at hpr
    by_cases hp : rb && avlPanics items
    · simp [hp] at hpr
    · simp [hp] at hpr
      rw [← hpr]
  · intro path items
    simp [rootsOf]

theorem avl_roots_postorder_witness :
    ((AVLTreeNode.new ⟨"f", "r/f", 1, FileType.File⟩,
        [AVLTreeNode.new ⟨"f", "r/f", 1, FileType.File⟩]) :
        AVLTree × List AVLTree).2 =
      [] ++ rootsOf "r" true [.file "f" 1] :=
  avl_roots_postorder.1 "r" true [.file "f" 1] []
    (AVLTreeNode.new ⟨"f", "r/f", 1, FileType.File⟩,
      [AVLTreeNode.new ⟨"f", "r/f", 1, FileType.File⟩])
    (by simp [build_avl_tree, avlLoop, insert_into_avl_tree,
      AVLTreeNode.new])

/-- C4 counterexample: a root directory holding the file `f` and a
subdirectory `c` holding the file `g`.  The returned vector lists the
subdirectory's root (the `g` leaf) *before* the root of the visited
parent directory (the `f` leaf), refuting pre-order placement. -/
theorem avl_roots_not_preorder :
    build_avl_tree "r" true
      [.file "f" 1, .dir "c" (some 0) true [.file "g" 2]] [] =
      .ret (AVLTreeNode.new ⟨"f", "r/f", 1, FileType.File⟩,
        [AVLTreeNode.new ⟨"g", "r/c/g", 2, FileType.File⟩,
          AVLTreeNode.new ⟨"f", "r/f", 1, FileType.File⟩]) ∧
    AVLTreeNode.new ⟨"f", "r/f", 1, FileType.File⟩ ≠
      AVLTreeNode.new ⟨"g", "r/c/g", 2, FileType.File⟩ := by
  constructor
  · simp [build_avl_tree, avlLoop, insert_into_avl_tree, AVLTreeNode.new]
  · simp [AVLTreeNode.new]

/-! ### C8 — the hash index holds only directory entries -/

lemma dirEntries_all_directories (path : String) (items : List FSItem) :
    ∀ e ∈ dirEntries path items, e.file_type = FileType.Directory := by
  induction path, items using dirEntries.induct with
  | case1 path => simp [dirEntries]
  | case2 path name size readable ch rest ihch ihrest =>
    intro e he
    simp only [dirEntries, List.mem_cons, List.mem_append] at he
    rcases he with rfl | he | he
    · rfl
    · exact ihch e he
    · exact ihrest e he
  | case3 path it rest ih =>
    intro e he
    simp only [dirEntries] at he
    exact ih e he
  | case4 path head rest h1 h2 ihrest =>
    intro e he
    cases head with
    | file name size =>
      simp only [dirEntries] at he
      exact ihrest e he
    | other name size =>
      simp only [dirEntries] at he
      exact ihrest e he
    | errEntry =>
      simp only [dirEntries] at he
      exact ihrest e he
    | ftErr =>
      simp only [dirEntries] at he
      exact ihrest e he
    | dir name sizeRes rb ch =>
      cases sizeRes with
      | none =>
        simp only [dirEntries] at he
        exact ihrest e he
      | some sz => exact (h1 name sz rb ch rfl).elim
    | metaErr it => exact (h2 it rfl).elim

lemma insert_preserves_all_directories (ht : HashTable) (e : FileMetadata)
    (he : e.file_type = FileType.Directory) (h0 : AllDirectories ht) :
    AllDirectories (ht.insert e) := by
  intro b hb x hx
  simp only [HashTable.insert] at hb
  rcases List.mem_or_eq_of_mem_set hb with hb' | rfl
  · exact h0 b hb' x hx
  · rcases List.mem_append.mp hx with hx' | hx'
    · have hcases : ht.buckets.getD (ht.slotOf e) [] = [] ∨
          ht.buckets.getD (ht.slotOf e) [] ∈ ht.buckets := by
        by_cases hlt : ht.slotOf e < ht.buckets.length
        · right
          rw [List.getD_eq_getElem?_getD, List.getElem?_eq_getElem hlt]
          exact List.getElem_mem hlt
        · left
          rw [List.getD_eq_getElem?_getD, List.getElem?_eq_none
            (le_of_not_lt hlt)]
          rfl
      rcases hcases with hnil | hmem
      · rw [hnil] at hx'
        cases hx'
      · exact h0 _ hmem x hx'
    · rw [List.mem_singleton.mp hx']
      exact he

lemma insertAll_preserves_all_directories (files : List FileMetadata) :
    ∀ ht : HashTable,
      (∀ e ∈ files, e.file_type = FileType.Directory) →
      AllDirectories ht → AllDirectories (insertAll ht files) := by
  induction files with
  | nil => intro ht _ h0; exact h0
  | cons e rest ih =>
    intro ht hall h0
    exact ih _ (fun x hx => hall x (List.mem_cons_of_mem e hx))
      (insert_preserves_all_directories ht e
        (hall e (List.mem_cons_self e rest)) h0)

/-- C8: if the input table holds only directory entries (as the empty
table does), every table `build_hash_table` returns holds only directory
entries: files are never inserted into the directory hash index. -/
theorem hash_walk_inserts_only_directories (path : String) (rb : Bool)
    (items : List FSItem) (ht ht' : HashTable)
    (h0 : AllDirectories ht)
    (hw : build_hash_table path rb items ht = .ret (some ht')) :
    AllDirectories ht' := by
  rw [build_hash_table_spec] at hw
  split at hw
  · exact RunResult.noConfusion hw
  · simp at hw
  · simp only [RunResult.ret.injEq, Option.some.injEq] at hw
    rw [← hw]
    exact insertAll_preserves_all_directories _ ht
      (dirEntries_all_directories path items) h0

theorem hash_walk_inserts_only_directories_witness :
    AllDirectories ((HashTable.new 2).insert
      ⟨"d", "r/d", 0, FileType.Directory⟩) :=
  hash_walk_inserts_only_directories "r" true
    [.dir "d" (some 0) true []] (HashTable.new 2) _
    (by
      intro b hb x hx
      rw [List.eq_of_mem_replicate hb] at hx
      cases hx)
    (by simp [build_hash_table, hashLoop])
